import Mathlib

/-!
# Verification of the `theory` migration subsystem

Shallow embedding of the migration engine of the `theory` Go ORM
(package `migration`: `migration.go` and the migrator file), together
with proofs about the claims on batching, atomicity, validation,
rollback scoping, idempotence and status reporting.

Modelling conventions:
* `time.Time` values are modelled by their Unix seconds as `Int`
  (the engine only ever compares timestamps and stores Unix seconds).
* The SQLite store is modelled by `DBState`: the `migrations` ledger
  table as a list of rows in insertion order, and the schema as the
  trace of executed DDL statements.  `SELECT ... ORDER BY timestamp ASC`
  is modelled by a stable insertion sort of the row list.
* Statement execution may be accepted or rejected by the store; this is
  modelled by the oracle `Store.execDDL` (a function of the current
  schema trace and the statement text).  `INSERT INTO migrations`
  fails exactly on a primary-key conflict on `id`, mirroring the
  `id TEXT PRIMARY KEY` schema.  Transaction semantics: in
  transactional mode effects are buffered and only a successful
  `Commit` publishes them; both an explicit `Rollback` and an
  abandoned (never-committed) transaction leave the persistent state
  unchanged.  (In the Go source the validation-error path returns
  without the deferred rollback firing, because the `err := ...` inside
  the loop shadows the outer `err`; the transaction is abandoned
  uncommitted, so the persistent state is unchanged either way.)
-/

/-- Go: `migration.Column` (migration.go). `typ` is Go's `Type`. -/
structure Column where
  name : String
  typ : String
  isPK : Bool
  isAuto : Bool
  isNull : Bool
  maxLength : Int
deriving Repr, DecidableEq

/-- Go: `migration.ForeignKey` (migration.go). -/
structure ForeignKey where
  columns : List String
  refTable : String
  refColumns : List String
  onDelete : String
  onUpdate : String
deriving Repr, DecidableEq

/-- Go: `migration.Index` (migration.go). -/
structure Index where
  name : String
  columns : List String
  isUnique : Bool
deriving Repr, DecidableEq

/-- Go: the `migration.Operation` interface together with its closed set of
implementations (`CreateTable`, `DropTable`, `AddColumn`, `DropColumn`,
`ModifyColumn`, `CreateIndex`, `DropIndex`, `AddForeignKey`,
`DropForeignKey`), as a sum type. -/
inductive Operation where
  | createTable (name : String) (columns : List Column)
      (foreignKeys : List ForeignKey) (indexes : List Index)
  | dropTable (name : String)
  | addColumn (table : String) (column : Column)
  | dropColumn (table : String) (column : String)
  | modifyColumn (table : String) (oldColumn : String) (newColumn : Column)
  | createIndex (table : String) (index : Index)
  | dropIndex (table : String) (name : String)
  | addForeignKey (table : String) (foreignKey : ForeignKey)
  | dropForeignKey (table : String) (name : String)
deriving Repr, DecidableEq

/-- Column clause of `CreateTable.SQL` (migration.go lines 112-125):
`<name> <type>`, then ` PRIMARY KEY AUTOINCREMENT` / ` PRIMARY KEY` for
primary keys, and ` NOT NULL` for non-nullable non-primary columns. -/
def columnClause (col : Column) : String :=
  let d := col.name ++ " " ++ col.typ
  let d := if col.isPK then
      (if col.isAuto then d ++ " PRIMARY KEY AUTOINCREMENT" else d ++ " PRIMARY KEY")
    else d
  if !col.isPK && !col.isNull then d ++ " NOT NULL" else d

/-- Foreign-key clause of `CreateTable.SQL` (migration.go lines 128-141). -/
def foreignKeyClause (fk : ForeignKey) : String :=
  let d := "FOREIGN KEY (" ++ String.intercalate ", " fk.columns ++ ") REFERENCES "
      ++ fk.refTable ++ " (" ++ String.intercalate ", " fk.refColumns ++ ")"
  let d := if fk.onDelete != "" then d ++ " ON DELETE " ++ fk.onDelete else d
  if fk.onUpdate != "" then d ++ " ON UPDATE " ++ fk.onUpdate else d

/-- Index statement of `CreateTable.SQL` / `CreateIndex.SQL`
(migration.go lines 147-154 and 208-214). -/
def indexStatement (table : String) (idx : Index) : String :=
  "CREATE " ++ (if idx.isUnique then "UNIQUE " else "") ++ "INDEX " ++ idx.name
    ++ " ON " ++ table ++ " (" ++ String.intercalate ", " idx.columns ++ ")"

/-- Go: the `SQL()` method of each `Operation` variant (migration.go). -/
def Operation.SQL : Operation → String
  | .createTable name columns foreignKeys indexes =>
      let cols := columns.map columnClause ++ foreignKeys.map foreignKeyClause
      let s := "CREATE TABLE " ++ name ++ " (\n\t" ++ String.intercalate ",\n\t" cols ++ "\n)"
      let idxs := indexes.map (indexStatement name)
      if idxs.length > 0 then s ++ ";\n" ++ String.intercalate ";\n" idxs else s
  | .dropTable name => "DROP TABLE " ++ name
  | .addColumn table column =>
      let d := column.name ++ " " ++ column.typ
      let d := if !column.isNull then d ++ " NOT NULL" else d
      "ALTER TABLE " ++ table ++ " ADD COLUMN " ++ d
  | .dropColumn table column => "ALTER TABLE " ++ table ++ " DROP COLUMN " ++ column
  | .modifyColumn table oldColumn newColumn =>
      "ALTER TABLE " ++ table ++ " RENAME COLUMN " ++ oldColumn ++ " TO " ++ newColumn.name
  | .createIndex table idx => indexStatement table idx
  | .dropIndex _ name => "DROP INDEX " ++ name
  | .addForeignKey table fk =>
      let s := "ALTER TABLE " ++ table ++ " ADD CONSTRAINT " ++ table ++ "_"
        ++ String.intercalate "_" fk.columns ++ "_fk FOREIGN KEY ("
        ++ String.intercalate ", " fk.columns ++ ") REFERENCES " ++ fk.refTable
        ++ " (" ++ String.intercalate ", " fk.refColumns ++ ")"
      let s := if fk.onDelete != "" then s ++ " ON DELETE " ++ fk.onDelete else s
      if fk.onUpdate != "" then s ++ " ON UPDATE " ++ fk.onUpdate else s
  | .dropForeignKey table name => "ALTER TABLE " ++ table ++ " DROP CONSTRAINT " ++ name

/-- Go: `migration.Migration` (migration.go lines 13-19).
`timestamp` is the Unix seconds of Go's `Timestamp time.Time`. -/
structure Migration where
  id : String
  timestamp : Int
  name : String
  up : List Operation
  down : List Operation
deriving Repr, DecidableEq

/-- Go: `migration.NewMigration` (migration.go lines 263-271); the creation
instant `time.Now()` is passed explicitly as its Unix seconds `now`.
The ID is `fmt.Sprintf("%d_%s", now, name)`. -/
def NewMigration (now : Int) (name : String) : Migration :=
  { id := toString now ++ "_" ++ name
    timestamp := now
    name := name
    up := []
    down := [] }

/-- Go: `migration.MigrationRecord` (migrator, lines 18-24): one row of the
`migrations` ledger table. -/
structure MigrationRecord where
  id : String
  name : String
  timestamp : Int
  applied : Int
  batch : Int
deriving Repr, DecidableEq

instance : Inhabited MigrationRecord := ⟨⟨"", "", 0, 0, 0⟩⟩

/-- The persistent store state: the `migrations` ledger table rows (in
insertion order) and the schema, abstracted as the trace of executed DDL
statements. -/
structure DBState where
  ledger : List MigrationRecord
  schema : List String
deriving Repr, DecidableEq

/-- The store oracle for one engine call: whether the store accepts a DDL
statement (given the current schema trace), whether `Commit` succeeds, and
the value of `time.Now().Unix()` during the call. -/
structure Store where
  execDDL : List String → String → Bool
  commitOk : Bool
  now : Int

/-- Go: `Migrator` (migrator, lines 12-15): the in-memory catalog of
registered migrations, in registration order (Go mutates this slice in
place when sorting). -/
structure Migrator where
  migrations : List Migration
deriving Repr, DecidableEq

/-- Character-wise upper-casing (Go: `strings.ToUpper`; the type names the
engine compares against are ASCII, for which Go's Unicode upper-casing and
per-character upper-casing agree). -/
def strToUpper (s : String) : String := ⟨s.data.map Char.toUpper⟩

/-- Go: `Migrator.validateSQLType` (migrator, lines 55-63): membership in
the hard-coded allow-list `{INTEGER, TEXT, REAL, BLOB}` after upper-casing. -/
def validateSQLType (sqlType : String) : Bool :=
  let u := strToUpper sqlType
  u = "INTEGER" || u = "TEXT" || u = "REAL" || u = "BLOB"

/-- Go: `Migrator.validateOperation` (migrator, lines 66-80).  Only
`CreateTable` and `AddColumn` are checked; every other variant (including
`ModifyColumn`) falls through to `nil`.  Returns the first error, if any. -/
def validateOperation (op : Operation) : Option String :=
  match op with
  | .createTable _ columns _ _ =>
      columns.findSome? fun col =>
        if validateSQLType col.typ then none else some ("invalid SQL type " ++ col.typ)
  | .addColumn _ column =>
      if validateSQLType column.typ then none
      else some ("invalid SQL type " ++ column.typ)
  | _ => none

/-- Stable insertion into a `le`-sorted list (auxiliary for `sortLe`). -/
def insertLe (le : α → α → Bool) (a : α) : List α → List α
  | [] => [a]
  | b :: rest => if le a b then a :: b :: rest else b :: insertLe le a rest

/-- Stable insertion sort by the boolean relation `le`.  Models both Go's
`sort.Slice` on the migration catalog and SQLite's `ORDER BY timestamp ASC`
on the ledger (neither specifies the order of ties). -/
def sortLe (le : α → α → Bool) : List α → List α
  | [] => []
  | a :: rest => insertLe le a (sortLe le rest)

/-- Comparison used to sort the catalog (Go: `sort.Slice` with
`Timestamp.Before`, migrator lines 111-113). -/
def migLe (a b : Migration) : Bool := a.timestamp ≤ b.timestamp

/-- Comparison used by `ORDER BY timestamp ASC` on ledger rows. -/
def recLe (a b : MigrationRecord) : Bool := a.timestamp ≤ b.timestamp

/-- Go: `Migrator.getAppliedMigrations` (migrator, lines 348-378): all
ledger rows, ordered ascending by (logical) timestamp. -/
def getAppliedMigrations (db : DBState) : List MigrationRecord :=
  sortLe recLe db.ledger

/-- SQL `MAX` aggregate over a column: `none` on an empty table. -/
def sqlMax : List Int → Option Int
  | [] => none
  | b :: rest =>
      some (match sqlMax rest with
        | none => b
        | some m => max b m)

/-- Go: `Migrator.getNextBatchNumber` (migrator, lines 83-90):
`SELECT COALESCE(MAX(batch), 0) + 1 FROM migrations`. -/
def getNextBatchNumber (db : DBState) : Int :=
  (sqlMax (db.ledger.map (·.batch))).getD 0 + 1

/-- Execute a list of operations' rendered statements in order against the
working state (migrator, lines 146-156 and 245-255): each statement is
rendered with `SQL()` and passed to the store; the first store rejection
aborts with the partial state. -/
def execOps (store : Store) : List Operation → DBState → Except String Unit × DBState
  | [], w => (.ok (), w)
  | op :: rest, w =>
      let stmt := op.SQL
      if store.execDDL w.schema stmt then
        execOps store rest { w with schema := w.schema ++ [stmt] }
      else (.error ("failed to execute: " ++ stmt), w)

/-- The loop body of `UpWithBatch` over the sorted catalog (migrator, lines
136-173): skip already-applied migrations; otherwise validate every Up
operation (first error aborts), execute every Up operation's statement,
and insert the ledger row (`applied = now`, `batch` = the batch computed
before the loop).  The insert fails exactly on an `id` primary-key
conflict.  Errors propagate with the working state reached so far. -/
def runPending (store : Store) (applied : List String) (batch : Int) :
    List Migration → DBState → Except String Unit × DBState
  | [], w => (.ok (), w)
  | mig :: rest, w =>
      if applied.any (fun a => a = mig.id) then
        runPending store applied batch rest w
      else
        match mig.up.findSome? validateOperation with
        | some e => (.error ("invalid operation in migration " ++ mig.name ++ ": " ++ e), w)
        | none =>
            match execOps store mig.up w with
            | (.error e, w1) => (.error ("failed to execute migration " ++ mig.name ++ ": " ++ e), w1)
            | (.ok _, w1) =>
                if w1.ledger.any (fun r => r.id = mig.id) then
                  (.error ("failed to record migration " ++ mig.name), w1)
                else
                  runPending store applied batch rest
                    { w1 with
                      ledger := w1.ledger ++
                        [{ id := mig.id, name := mig.name, timestamp := mig.timestamp
                           applied := store.now, batch := batch }] }

/-- Go: `Migrator.UpWithBatch` (migrator, lines 98-184).  Reads the applied
set, sorts the catalog in place, computes the next batch number, then runs
the pending migrations; in transactional mode (`useTx = true`) effects are
published only by a successful commit, and any error (validation,
execution, record insertion, commit) leaves the persistent state as it
was before the call.  Returns the result, the migrator (with its catalog
now sorted) and the resulting persistent state. -/
def UpWithBatch (store : Store) (useTx : Bool) (m : Migrator) (db : DBState) :
    Except String Unit × Migrator × DBState :=
  let records := getAppliedMigrations db
  let applied := records.map (·.id)
  let sorted := sortLe migLe m.migrations
  let batch := getNextBatchNumber db
  match runPending store applied batch sorted db with
  | (.ok _, w) =>
      if useTx then
        if store.commitOk then (.ok (), ⟨sorted⟩, w)
        else (.error "failed to commit transaction", ⟨sorted⟩, db)
      else (.ok (), ⟨sorted⟩, w)
  | (.error e, w) => (.error e, ⟨sorted⟩, if useTx then db else w)

/-- Go: `Migrator.Up` (migrator, lines 92-95). -/
def Up (store : Store) (m : Migrator) (db : DBState) :
    Except String Unit × Migrator × DBState :=
  UpWithBatch store true m db

/-- The loop body of `DownWithBatch` over the rows to roll back, already
reversed into processing order (migrator, lines 229-267): find the
registered migration by ID (first match in catalog order; missing is a
fatal error), execute its Down operations' statements, then delete the
ledger row by ID. -/
def runRollback (store : Store) (migs : List Migration) :
    List MigrationRecord → DBState → Except String Unit × DBState
  | [], w => (.ok (), w)
  | rec :: rest, w =>
      match migs.find? (fun mg => mg.id = rec.id) with
      | none => (.error ("migration " ++ rec.id ++ " not found"), w)
      | some mig =>
          match execOps store mig.down w with
          | (.error e, w1) => (.error ("failed to roll back migration " ++ mig.name ++ ": " ++ e), w1)
          | (.ok _, w1) =>
              runRollback store migs rest
                { w1 with ledger := w1.ledger.filter (fun r => !(r.id = rec.id : Bool)) }

/-- The batch number `DownWithBatch` selects: the batch of the last ledger
row in ascending-timestamp order (migrator, line 204,
`records[len(records)-1].Batch`). -/
def lastBatchSelected (db : DBState) : Int :=
  ((getAppliedMigrations db).getLastD default).batch

/-- The ledger rows collected for rollback (migrator, lines 207-212): the
rows whose batch equals the selected batch, in ascending-timestamp order. -/
def rollbackSet (db : DBState) : List MigrationRecord :=
  (getAppliedMigrations db).filter (fun r => r.batch = lastBatchSelected db)

/-- Go: `Migrator.DownWithBatch` (migrator, lines 192-278).  Empty ledger:
success with no effect.  Otherwise the rows of the selected batch are
processed in descending-timestamp order; in transactional mode any error
leaves the persistent state as before the call. -/
def DownWithBatch (store : Store) (useTx : Bool) (m : Migrator) (db : DBState) :
    Except String Unit × DBState :=
  let records := getAppliedMigrations db
  if records.isEmpty then (.ok (), db)
  else
    match runRollback store m.migrations (rollbackSet db).reverse db with
    | (.ok _, w) =>
        if useTx then
          if store.commitOk then (.ok (), w)
          else (.error "failed to commit transaction", db)
        else (.ok (), w)
    | (.error e, w) => (.error e, if useTx then db else w)

/-- Go: `Migrator.Down` (migrator, lines 187-189). -/
def Down (store : Store) (m : Migrator) (db : DBState) :
    Except String Unit × DBState :=
  DownWithBatch store true m db

/-- One element of the result of `Migrator.Status` (migrator, lines
281-285): the migration, the applied instant (if any) and the batch. -/
structure StatusEntry where
  migration : Migration
  applied : Option Int
  batch : Int
deriving Repr, DecidableEq

/-- The lookup `Status` performs into the applied map for one migration ID
(migrator, lines 298-310): the Go map is built by iterating the records,
so the last record with a given ID wins. -/
def appliedLookup (records : List MigrationRecord) (id : String) : Option MigrationRecord :=
  (records.filter (fun r => r.id = id)).getLast?

/-- Go: `Migrator.Status` (migrator, lines 281-345): one entry per
registered migration, in catalog order (this version of the code performs
no sort), carrying the ledger row's applied instant and batch when
present, else no instant and batch `0`. -/
def Status (m : Migrator) (db : DBState) : List StatusEntry :=
  let records := getAppliedMigrations db
  m.migrations.map fun mig =>
    match appliedLookup records mig.id with
    | some r => { migration := mig, applied := some r.applied, batch := r.batch }
    | none => { migration := mig, applied := none, batch := 0 }

/-! ## Concrete fixtures used to instantiate the theorems -/

/-- A store that accepts every DDL statement and commits, with
`time.Now().Unix() = 100`. -/
def storeAll : Store := ⟨fun _ _ => true, true, 100⟩

/-- An empty database (no ledger rows, no schema objects). -/
def dbEmpty : DBState := ⟨[], []⟩

/-- A well-typed migration creating a table (mirrors the repository's own
`create_users` test migration). -/
def migUsers : Migration :=
  { id := "m1", timestamp := 10, name := "create_users"
    up := [.createTable "users"
      [⟨"id", "INTEGER", true, true, false, 0⟩, ⟨"name", "TEXT", false, false, false, 0⟩] [] []]
    down := [.dropTable "users"] }

/-- A migration whose only Up operation is a `ModifyColumn` carrying the
invalid column type `BOGUS` (the validator never looks at it). -/
def migModifyBogus : Migration :=
  { id := "mb", timestamp := 5, name := "bad"
    up := [.modifyColumn "t" "old" ⟨"new", "BOGUS", false, false, true, 0⟩]
    down := [] }

/-- A migration whose only Up operation is an `AddColumn` carrying the
invalid column type `BOGUS` (the validator rejects it). -/
def migAddBogus : Migration :=
  { id := "mc", timestamp := 5, name := "bad2"
    up := [.addColumn "t" ⟨"c", "BOGUS", false, false, true, 0⟩]
    down := [] }

/-- Two registered migrations whose logical timestamps are out of
registration order. -/
def catalogUnsorted : Migrator :=
  ⟨[⟨"a5", 5, "five", [], []⟩, ⟨"a3", 3, "three", [], []⟩]⟩

/-- A ledger in which the row with the greatest timestamp carries batch 1
while another row carries batch 2: timestamp order and batch order
disagree. -/
def dbSkew : DBState :=
  ⟨[⟨"a", "a", 2, 50, 1⟩, ⟨"b", "b", 1, 60, 2⟩], []⟩

/-- A catalog registering a rollback for row `a` of `dbSkew`, whose Down
operation carries the invalid column type `BOGUS`. -/
def catalogBogusDown : Migrator :=
  ⟨[{ id := "a", timestamp := 2, name := "a", up := []
      down := [.addColumn "t" ⟨"c", "BOGUS", false, false, true, 0⟩] }]⟩

/-- A catalog registering a rollback for row `a` of `dbSkew` with a
well-typed Down operation. -/
def catalogDropT : Migrator :=
  ⟨[{ id := "a", timestamp := 2, name := "a", up := []
      down := [.dropTable "t"] }]⟩

/-- Whether a list of timestamps is in ascending order (used to state the
ordering part of the status claim). -/
def tsAscending : List Int → Bool
  | [] => true
  | [_] => true
  | a :: b :: rest => decide (a ≤ b) && tsAscending (b :: rest)

/-! ## Helper lemmas about the sort -/

/-- Membership is preserved by `insertLe`. -/
theorem mem_insertLe (le : α → α → Bool) (a x : α) (l : List α) :
    x ∈ insertLe le a l ↔ x = a ∨ x ∈ l := by
  induction l with
  | nil => simp [insertLe]
  | cons b rest ih =>
      simp only [insertLe]
      split
      · simp
      · simp only [List.mem_cons, ih]
        tauto

/-- Membership is preserved by `sortLe`. -/
theorem mem_sortLe (le : α → α → Bool) (x : α) (l : List α) :
    x ∈ sortLe le l ↔ x ∈ l := by
  induction l with
  | nil => simp [sortLe]
  | cons b rest ih => simp [sortLe, mem_insertLe, ih]

/-- Adjacent-sortedness of a list under a boolean relation. -/
def BChain (le : α → α → Bool) (l : List α) : Prop :=
  List.Chain' (fun a b => le a b = true) l

theorem bchain_insertLe (le : α → α → Bool)
    (htot : ∀ a b, le a b = true ∨ le b a = true) (a : α) (l : List α)
    (h : BChain le l) : BChain le (insertLe le a l) := by
  induction l with
  | nil => simp [insertLe, BChain]
  | cons b rest ih =>
      simp only [insertLe]
      split
      · exact List.Chain'.cons (by assumption) h
      · have hba : le b a = true := by
          rcases htot a b with hab | hba
          · exact absurd hab (by assumption)
          · exact hba
        have hrest : BChain le rest := h.tail
        have hins := ih hrest
        cases rest with
        | nil => exact List.Chain'.cons hba hins
        | cons c r2 =>
            simp only [insertLe] at hins ⊢
            split at hins
            · rename_i hac
              rw [if_pos hac]
              exact List.Chain'.cons hba hins
            · rename_i hac
              rw [if_neg hac]
              have hbc : le b c = true := (List.chain'_cons.mp h).1
              exact List.Chain'.cons hbc hins

theorem bchain_sortLe (le : α → α → Bool)
    (htot : ∀ a b, le a b = true ∨ le b a = true) (l : List α) :
    BChain le (sortLe le l) := by
  induction l with
  | nil => simp [sortLe, BChain]
  | cons b rest ih => exact bchain_insertLe le htot b _ ih

/-- Sorting an already-sorted list leaves it unchanged. -/
theorem sortLe_eq_of_bchain (le : α → α → Bool) (l : List α)
    (h : BChain le l) : sortLe le l = l := by
  induction l with
  | nil => rfl
  | cons b rest ih =>
      have hrest : sortLe le rest = rest := ih h.tail
      simp only [sortLe, hrest]
      cases rest with
      | nil => rfl
      | cons c r2 =>
          have hbc : le b c = true := (List.chain'_cons.mp h).1
          simp [insertLe, hbc]

/-- In a sorted list every element is `le` the last element (with any
default, for nonempty lists). -/
theorem le_getLastD_of_bchain (le : α → α → Bool)
    (hrefl : ∀ a, le a a = true)
    (htrans : ∀ a b c, le a b = true → le b c = true → le a c = true)
    (d : α) (l : List α) (h : BChain le l) :
    ∀ x ∈ l, le x (l.getLastD d) = true := by
  induction l with
  | nil => simp
  | cons b rest ih =>
      intro x hx
      cases rest with
      | nil =>
          simp at hx
          subst hx
          simpa using hrefl x
      | cons c r2 =>
          have hbc : le b c = true := (List.chain'_cons.mp h).1
          have ihr := ih h.tail
          rcases List.mem_cons.mp hx with rfl | hx
          · have hc : le c ((c :: r2).getLastD d) = true := ihr c (by simp)
            have : (x :: c :: r2).getLastD d = (c :: r2).getLastD d := by simp
            rw [this]
            exact htrans x c _ hbc hc
          · have := ihr x hx
            simpa using this

/-! ## Helper lemmas about statement execution -/

/-- `execOps` never touches the ledger. -/
theorem execOps_ledger (store : Store) (ops : List Operation) (w : DBState) :
    (execOps store ops w).2.ledger = w.ledger := by
  induction ops generalizing w with
  | nil => rfl
  | cons op rest ih =>
      simp only [execOps]
      split
      · exact ih _
      · rfl

/-- On success, `execOps` appends exactly the rendered statements to the
schema trace. -/
theorem execOps_ok_schema (store : Store) (ops : List Operation) (w w' : DBState)
    (h : execOps store ops w = (.ok (), w')) :
    w'.schema = w.schema ++ ops.map Operation.SQL ∧ w'.ledger = w.ledger := by
  induction ops generalizing w with
  | nil =>
      simp only [execOps] at h
      cases h
      simp
  | cons op rest ih =>
      simp only [execOps] at h
      split at h
      · have := ih _ h
        simpa [List.append_assoc] using this
      · cases h

/-- With a store that accepts every statement, `execOps` succeeds and
appends exactly the rendered statements. -/
theorem execOps_total (store : Store) (hexec : ∀ sch s, store.execDDL sch s = true)
    (ops : List Operation) (w : DBState) :
    execOps store ops w = (.ok (), ⟨w.ledger, w.schema ++ ops.map Operation.SQL⟩) := by
  induction ops generalizing w with
  | nil => simp [execOps]
  | cons op rest ih =>
      simp only [execOps, hexec, if_pos]
      rw [ih]
      simp

/-- `findSome?` returns `none` exactly when every element maps to `none`. -/
theorem findSome?_eq_none_iff (f : α → Option β) (l : List α) :
    l.findSome? f = none ↔ ∀ x ∈ l, f x = none := by
  induction l with
  | nil => simp
  | cons a rest ih =>
      cases hfa : f a with
      | some b => simp [List.findSome?_cons, hfa]
      | none => simp [List.findSome?_cons, hfa, ih]

/-! ## Helper lemmas about the Up loop -/

/-- `runPending` only ever appends rows to the ledger, and every appended
row carries the batch number and instant the loop was given.  This holds
for the working state of every outcome, error or success. -/
theorem runPending_ledger_append (store : Store) (applied : List String) (batch : Int)
    (migs : List Migration) (w : DBState) :
    ∃ new, (runPending store applied batch migs w).2.ledger = w.ledger ++ new ∧
      ∀ r ∈ new, r.batch = batch ∧ r.applied = store.now := by
  induction migs generalizing w with
  | nil => exact ⟨[], by simp [runPending], by simp⟩
  | cons mig rest ih =>
      simp only [runPending]
      split
      · exact ih w
      · split
        · exact ⟨[], by simp, by simp⟩
        · rcases h1 : execOps store mig.up w with ⟨res, w1⟩
          have hw1 : w1.ledger = w.ledger := by
            have := execOps_ledger store mig.up w
            rw [h1] at this
            exact this
          cases res with
          | error e => exact ⟨[], by simp [h1, hw1], by simp⟩
          | ok u =>
              cases u
              simp only [h1]
              split
              · exact ⟨[], by simp [hw1], by simp⟩
              · rcases ih ({ w1 with ledger := w1.ledger ++
                  [{ id := mig.id, name := mig.name, timestamp := mig.timestamp
                     applied := store.now, batch := batch }] }) with ⟨new, hnew, hbatch⟩
                refine ⟨{ id := mig.id, name := mig.name, timestamp := mig.timestamp
                          applied := store.now, batch := batch } :: new, ?_, ?_⟩
                · simpa [hw1] using hnew
                · intro r hr
                  rcases List.mem_cons.mp hr with rfl | hr
                  · exact ⟨rfl, rfl⟩
                  · exact hbatch r hr

/-- After a successful `runPending`, every processed migration is either in
the applied set or present (by ID) in the resulting ledger. -/
theorem runPending_ok_covered (store : Store) (applied : List String) (batch : Int)
    (migs : List Migration) (w w' : DBState)
    (h : runPending store applied batch migs w = (.ok (), w')) :
    ∀ mig ∈ migs, applied.any (fun a => a = mig.id) = true ∨
      mig.id ∈ w'.ledger.map (·.id) := by
  induction migs generalizing w with
  | nil => simp
  | cons mig rest ih =>
      intro mg hmg
      rcases List.mem_cons.mp hmg with rfl | hmg
      · simp only [runPending] at h
        split at h
        · left; assumption
        · split at h
          · cases h
          · rcases h1 : execOps store mg.up w with ⟨res, w1⟩
            rw [h1] at h
            cases res with
            | error e => cases h
            | ok u =>
                cases u
                simp only at h
                split at h
                · cases h
                · right
                  set w2 : DBState := { w1 with ledger := w1.ledger ++
                    [{ id := mg.id, name := mg.name, timestamp := mg.timestamp
                       applied := store.now, batch := batch }] } with hw2
                  rcases runPending_ledger_append store applied batch rest w2 with ⟨new, hnew, _⟩
                  rw [h] at hnew
                  rw [hnew, hw2]
                  simp
      · simp only [runPending] at h
        split at h
        · exact ih _ h mg hmg
        · split at h
          · cases h
          · rcases h1 : execOps store mig.up w with ⟨res, w1⟩
            rw [h1] at h
            cases res with
            | error e => cases h
            | ok u =>
                cases u
                simp only at h
                split at h
                · cases h
                · exact ih _ h mg hmg

/-- When every migration is already applied, the Up loop does nothing. -/
theorem runPending_skip_all (store : Store) (applied : List String) (batch : Int)
    (migs : List Migration) (w : DBState)
    (h : ∀ mig ∈ migs, applied.any (fun a => a = mig.id) = true) :
    runPending store applied batch migs w = (.ok (), w) := by
  induction migs with
  | nil => rfl
  | cons mig rest ih =>
      simp only [runPending, h mig (by simp), if_pos]
      exact ih fun mg hmg => h mg (List.mem_cons_of_mem _ hmg)

/-- A successful `runPending` implies every processed (not-yet-applied)
migration passed validation of all its Up operations. -/
theorem runPending_ok_validated (store : Store) (applied : List String) (batch : Int)
    (migs : List Migration) (w w' : DBState)
    (h : runPending store applied batch migs w = (.ok (), w')) :
    ∀ mig ∈ migs, applied.any (fun a => a = mig.id) = false →
      mig.up.findSome? validateOperation = none := by
  induction migs generalizing w with
  | nil => simp
  | cons mig rest ih =>
      intro mg hmg hnapp
      rcases List.mem_cons.mp hmg with rfl | hmg
      · simp only [runPending] at h
        rw [hnapp] at h
        simp only [Bool.false_eq_true, if_false] at h
        cases hval : mg.up.findSome? validateOperation with
        | some e => rw [hval] at h; cases h
        | none => rfl
      · simp only [runPending] at h
        split at h
        · exact ih _ h mg hmg hnapp
        · split at h
          · cases h
          · rcases h1 : execOps store mig.up w with ⟨res, w1⟩
            rw [h1] at h
            cases res with
            | error e => cases h
            | ok u =>
                cases u
                simp only at h
                split at h
                · cases h
                · exact ih _ h mg hmg hnapp

/-! ## Helper lemmas about the Down loop -/

/-- Rows whose ID differs from every processed row survive the rollback
loop, whatever its outcome. -/
theorem runRollback_mem_preserved (store : Store) (migs : List Migration)
    (recs : List MigrationRecord) (w : DBState) :
    ∀ r ∈ w.ledger, (∀ rec ∈ recs, ¬ r.id = rec.id) →
      r ∈ (runRollback store migs recs w).2.ledger := by
  induction recs generalizing w with
  | nil => intro r hr _; simpa [runRollback] using hr
  | cons rec rest ih =>
      intro r hr hne
      simp only [runRollback]
      cases hf : migs.find? (fun mg => mg.id = rec.id) with
      | none => simpa using hr
      | some mig =>
          rcases h1 : execOps store mig.down w with ⟨res, w1⟩
          have hw1 : w1.ledger = w.ledger := by
            have := execOps_ledger store mig.down w
            rw [h1] at this
            exact this
          cases res with
          | error e => simp only [h1, hw1]; exact hr
          | ok u =>
              cases u
              simp only [h1]
              refine ih _ r ?_ (fun rc hrc => hne rc (List.mem_cons_of_mem _ hrc))
              simp only [List.mem_filter, hw1]
              exact ⟨hr, by simpa using hne rec (by simp)⟩

/-- On success, the rollback loop removes from the ledger exactly the rows
whose ID occurs among the processed rows. -/
theorem runRollback_ok_ledger (store : Store) (migs : List Migration)
    (recs : List MigrationRecord) (w w' : DBState)
    (h : runRollback store migs recs w = (.ok (), w')) :
    w'.ledger = w.ledger.filter
      (fun r => !(recs.any (fun rec => r.id = rec.id))) := by
  induction recs generalizing w with
  | nil =>
      simp only [runRollback] at h
      cases h
      simp
  | cons rec rest ih =>
      simp only [runRollback] at h
      cases hf : migs.find? (fun mg => mg.id = rec.id) with
      | none => rw [hf] at h; simp only at h; cases h
      | some mig =>
          rw [hf] at h
          simp only at h
          rcases h1 : execOps store mig.down w with ⟨res, w1⟩
          rw [h1] at h
          have hw1 : w1.ledger = w.ledger := by
            have := execOps_ledger store mig.down w
            rw [h1] at this
            exact this
          cases res with
          | error e => cases h
          | ok u =>
              cases u
              simp only at h
              have hres := ih _ h
              simp only [hres, hw1, List.filter_filter]
              refine List.filter_congr fun r _ => ?_
              simp only [List.any_cons]
              cases hdec : (r.id = rec.id : Bool) <;> simp [hdec]

/-- On success, the rollback loop appends to the schema trace exactly the
rendered Down statements of the matched migrations, in processing order. -/
theorem runRollback_ok_schema (store : Store) (migs : List Migration)
    (recs : List MigrationRecord) (w w' : DBState)
    (h : runRollback store migs recs w = (.ok (), w')) :
    w'.schema = w.schema ++ recs.flatMap (fun rec =>
      match migs.find? (fun mg => mg.id = rec.id) with
      | some mig => mig.down.map Operation.SQL
      | none => []) := by
  induction recs generalizing w with
  | nil =>
      simp only [runRollback] at h
      cases h
      simp
  | cons rec rest ih =>
      simp only [runRollback] at h
      cases hf : migs.find? (fun mg => mg.id = rec.id) with
      | none => rw [hf] at h; simp only at h; cases h
      | some mig =>
          rw [hf] at h
          simp only at h
          rcases h1 : execOps store mig.down w with ⟨res, w1⟩
          rw [h1] at h
          cases res with
          | error e => cases h
          | ok u =>
              cases u
              simp only at h
              have hs1 : w1.schema = w.schema ++ mig.down.map Operation.SQL :=
                (execOps_ok_schema store mig.down w w1 h1).1
              have hres := ih _ h
              simp only [List.flatMap_cons, hf, hres, hs1, List.append_assoc]

/-- With an all-accepting store and every processed row matched by a
registered migration, the rollback loop succeeds. -/
theorem runRollback_total (store : Store)
    (hexec : ∀ sch s, store.execDDL sch s = true)
    (migs : List Migration) (recs : List MigrationRecord) (w : DBState)
    (hfound : ∀ rec ∈ recs, (migs.find? (fun mg => mg.id = rec.id)).isSome) :
    (runRollback store migs recs w).1 = .ok () := by
  induction recs generalizing w with
  | nil => rfl
  | cons rec rest ih =>
      simp only [runRollback]
      cases hf : migs.find? (fun mg => mg.id = rec.id) with
      | none =>
          have := hfound rec (by simp)
          rw [hf] at this
          cases this
      | some mig =>
          simp only
          rw [execOps_total store hexec mig.down w]
          exact ih _ fun rc hrc => hfound rc (List.mem_cons_of_mem _ hrc)

/-! ## Further small helpers -/

/-- `any (· = x)` is membership. -/
theorem any_eq_iff_mem (l : List String) (x : String) :
    l.any (fun a => a = x) = true ↔ x ∈ l := by
  simp

/-- `sortLe` maps the empty list to the empty list and nothing else. -/
theorem sortLe_eq_nil_iff (le : α → α → Bool) (l : List α) :
    sortLe le l = [] ↔ l = [] := by
  cases l with
  | nil => simp [sortLe]
  | cons a rest =>
      simp only [sortLe]
      constructor
      · intro h
        have : a ∈ insertLe le a (sortLe le rest) := (mem_insertLe le a a _).mpr (Or.inl rfl)
        rw [h] at this
        cases this
      · intro h
        cases h

/-- The last element (with default) of a nonempty list is a member. -/
theorem getLastD_mem (l : List α) (d : α) (h : l ≠ []) : l.getLastD d ∈ l := by
  induction l with
  | nil => cases h rfl
  | cons b rest ih =>
      cases rest with
      | nil => simp
      | cons c r2 =>
          have := ih (by simp)
          simpa using Or.inr this

/-- Specification of the SQL `MAX` aggregate: on nonempty input it returns
a member that bounds every element. -/
theorem sqlMax_spec (l : List Int) (hne : l ≠ []) :
    ∃ mx, sqlMax l = some mx ∧ mx ∈ l ∧ ∀ x ∈ l, x ≤ mx := by
  induction l with
  | nil => cases hne rfl
  | cons b rest ih =>
      cases rest with
      | nil => exact ⟨b, by simp [sqlMax], by simp, by simp⟩
      | cons c r2 =>
          rcases ih (by simp) with ⟨mx, hmx, hmem, hub⟩
          refine ⟨max b mx, by rw [sqlMax, hmx], ?_, ?_⟩
          · rcases max_choice b mx with hbm | hbm
            · rw [hbm]; exact List.mem_cons_self _ _
            · rw [hbm]; exact List.mem_cons_of_mem _ hmem
          · intro x hx
            rcases List.mem_cons.mp hx with rfl | hx
            · exact le_max_left _ _
            · exact le_trans (hub x hx) (le_max_right _ _)

/-- Inversion of a successful `UpWithBatch`: the returned migrator is the
sorted catalog and the resulting state is exactly the state the Up loop
produced (in transactional mode the commit must have succeeded). -/
theorem upWithBatch_ok_inv (store : Store) (useTx : Bool) (m m' : Migrator)
    (db db' : DBState) (h : UpWithBatch store useTx m db = (.ok (), m', db')) :
    m' = ⟨sortLe migLe m.migrations⟩ ∧
    runPending store ((getAppliedMigrations db).map (·.id)) (getNextBatchNumber db)
      (sortLe migLe m.migrations) db = (.ok (), db') := by
  simp only [UpWithBatch] at h
  rcases hrp : runPending store ((getAppliedMigrations db).map (·.id)) (getNextBatchNumber db)
      (sortLe migLe m.migrations) db with ⟨res, w⟩
  rw [hrp] at h
  cases res with
  | error e =>
      simp only [Prod.mk.injEq] at h
      exact absurd h.1 (by simp)
  | ok u =>
      cases u
      simp only at h
      by_cases htx : useTx
      · rw [if_pos htx] at h
        by_cases hco : store.commitOk
        · rw [if_pos hco] at h
          simp only [Prod.mk.injEq] at h
          exact ⟨h.2.1.symm, by rw [hrp, h.2.2]⟩
        · rw [if_neg hco] at h
          simp only [Prod.mk.injEq] at h
          exact absurd h.1 (by simp)
      · rw [if_neg htx] at h
        simp only [Prod.mk.injEq] at h
        exact ⟨h.2.1.symm, by rw [hrp, h.2.2]⟩

/-- C1: every successful `Up` appends rows that all carry the batch number
`max(ledger batches) + 1`, which is `1` on an empty ledger. -/
theorem up_assigns_next_batch (store : Store) (useTx : Bool) (m m' : Migrator)
    (db db' : DBState) (h : UpWithBatch store useTx m db = (.ok (), m', db')) :
    ∃ new, db'.ledger = db.ledger ++ new ∧
      ∀ r ∈ new,
        (db.ledger = [] → r.batch = 1) ∧
        (∀ r0 ∈ db.ledger, r0.batch < r.batch) ∧
        (db.ledger ≠ [] → ∃ r0 ∈ db.ledger, r.batch = r0.batch + 1) := by
  rcases upWithBatch_ok_inv store useTx m m' db db' h with ⟨-, hrp⟩
  rcases runPending_ledger_append store ((getAppliedMigrations db).map (·.id))
      (getNextBatchNumber db) (sortLe migLe m.migrations) db with ⟨new, hnew, hbatch⟩
  rw [hrp] at hnew
  refine ⟨new, hnew, fun r hr => ?_⟩
  have hb : r.batch = getNextBatchNumber db := (hbatch r hr).1
  refine ⟨?_, ?_, ?_⟩
  · intro hemp
    rw [hb]
    simp [getNextBatchNumber, hemp, sqlMax]
  · intro r0 hr0
    have hne : db.ledger.map (·.batch) ≠ [] := by
      intro hc
      rw [List.map_eq_nil_iff] at hc
      rw [hc] at hr0
      cases hr0
    rcases sqlMax_spec _ hne with ⟨mx, hmx, -, hub⟩
    have : r0.batch ≤ mx := hub _ (List.mem_map_of_mem _ hr0)
    rw [hb]
    simp only [getNextBatchNumber, hmx, Option.getD_some]
    omega
  · intro hne'
    have hne : db.ledger.map (·.batch) ≠ [] := by
      simpa [List.map_eq_nil_iff] using hne'
    rcases sqlMax_spec _ hne with ⟨mx, hmx, hmem, -⟩
    rcases List.mem_map.mp hmem with ⟨r0, hr0, hr0b⟩
    refine ⟨r0, hr0, ?_⟩
    rw [hb]
    simp only [getNextBatchNumber, hmx, Option.getD_some]
    omega

/-- Witness for C1 at a concrete input: applying one migration to an empty
database assigns batch 1. -/
theorem up_assigns_next_batch_witness :
    ∃ new, (UpWithBatch storeAll true ⟨[migUsers]⟩ dbEmpty).2.2.ledger = dbEmpty.ledger ++ new ∧
      ∀ r ∈ new,
        (dbEmpty.ledger = [] → r.batch = 1) ∧
        (∀ r0 ∈ dbEmpty.ledger, r0.batch < r.batch) ∧
        (dbEmpty.ledger ≠ [] → ∃ r0 ∈ dbEmpty.ledger, r.batch = r0.batch + 1) :=
  up_assigns_next_batch storeAll true ⟨[migUsers]⟩ ⟨[migUsers]⟩ dbEmpty
    ((UpWithBatch storeAll true ⟨[migUsers]⟩ dbEmpty).2.2) (by rfl)

/-- C2: in transactional mode, an `Up` call that returns an error (from
validation, statement execution, ledger recording, or commit) leaves the
persistent state — ledger and schema — exactly as before the call. -/
theorem up_tx_error_atomic (store : Store) (m m' : Migrator) (db db' : DBState)
    (e : String) (h : UpWithBatch store true m db = (.error e, m', db')) :
    db' = db := by
  simp only [UpWithBatch] at h
  rcases hrp : runPending store ((getAppliedMigrations db).map (·.id)) (getNextBatchNumber db)
      (sortLe migLe m.migrations) db with ⟨res, w⟩
  rw [hrp] at h
  cases res with
  | error e2 =>
      simp only [if_true, Prod.mk.injEq] at h
      exact h.2.2.symm
  | ok u =>
      cases u
      simp only [if_true] at h
      by_cases hco : store.commitOk
      · rw [if_pos hco] at h
        simp only [Prod.mk.injEq] at h
        exact absurd h.1 (by simp)
      · rw [if_neg hco] at h
        simp only [Prod.mk.injEq] at h
        exact h.2.2.symm

/-- Witness for C2 at a concrete input: a failed validation leaves the
database untouched. -/
theorem up_tx_error_atomic_witness :
    (UpWithBatch storeAll true ⟨[migAddBogus]⟩ dbEmpty).2.2 = dbEmpty :=
  up_tx_error_atomic storeAll ⟨[migAddBogus]⟩
    (UpWithBatch storeAll true ⟨[migAddBogus]⟩ dbEmpty).2.1 dbEmpty
    (UpWithBatch storeAll true ⟨[migAddBogus]⟩ dbEmpty).2.2
    "invalid operation in migration bad2: invalid SQL type BOGUS" (by rfl)

/-- C3 counterexample: a `ModifyColumn` operation carrying an invalid
column type is never validated — the apply succeeds and executes its
statement, contradicting the claim that every column referenced by
`ModifyColumn` is checked and that a single invalid type fails the whole
apply before any side effect. -/
theorem up_validation_counterexample :
    validateSQLType "BOGUS" = false ∧
    (UpWithBatch storeAll true ⟨[migModifyBogus]⟩ dbEmpty).1 = .ok () ∧
    (UpWithBatch storeAll true ⟨[migModifyBogus]⟩ dbEmpty).2.2.schema =
      ["ALTER TABLE t RENAME COLUMN old TO new"] :=
  ⟨by decide, by rfl, by rfl⟩

/-- C3 amended: for every transactional `Up` call, if some pending
migration contains a `CreateTable` or `AddColumn` operation with an
invalid column type (the operations the validator actually inspects —
`ModifyColumn` is never checked), the call fails and the persistent state
is unchanged.  Validation of each migration happens immediately before
that migration's statements execute, not before the whole pending set. -/
theorem up_rejects_invalid_pending (store : Store) (m : Migrator) (db : DBState)
    (mig : Migration) (hmem : mig ∈ m.migrations)
    (hpend : mig.id ∉ db.ledger.map (·.id))
    (op : Operation) (hop : op ∈ mig.up) (hbad : validateOperation op ≠ none) :
    ∃ e m', UpWithBatch store true m db = (.error e, m', db) := by
  rcases hrp : runPending store ((getAppliedMigrations db).map (·.id)) (getNextBatchNumber db)
      (sortLe migLe m.migrations) db with ⟨res, w⟩
  cases res with
  | ok u =>
      cases u
      exfalso
      have hnapp : ((getAppliedMigrations db).map (·.id)).any (fun a => a = mig.id) = false := by
        rw [Bool.eq_false_iff]
        intro hany
        have hm : mig.id ∈ (getAppliedMigrations db).map (fun r => r.id) :=
          (any_eq_iff_mem _ _).mp hany
        rcases List.mem_map.mp hm with ⟨r, hr, hrid⟩
        exact hpend (List.mem_map.mpr ⟨r, (mem_sortLe _ _ _).mp hr, hrid⟩)
      have hval := runPending_ok_validated store _ _ _ db w hrp mig
        ((mem_sortLe migLe mig m.migrations).mpr hmem) hnapp
      exact hbad ((findSome?_eq_none_iff validateOperation mig.up).mp hval op hop)
  | error e =>
      refine ⟨e, ⟨sortLe migLe m.migrations⟩, ?_⟩
      simp only [UpWithBatch]
      rw [hrp]
      simp

/-- Witness for C3's amended claim at a concrete input. -/
theorem up_rejects_invalid_pending_witness :
    ∃ e m', UpWithBatch storeAll true ⟨[migAddBogus]⟩ dbEmpty = (.error e, m', dbEmpty) :=
  up_rejects_invalid_pending storeAll ⟨[migAddBogus]⟩ dbEmpty migAddBogus
    (List.mem_cons_self _ _) (by decide) (.addColumn "t" ⟨"c", "BOGUS", false, false, true, 0⟩)
    (by decide) (by decide)

/-- C4 counterexample: `NULL` (in any casing) is not in the allow-list —
the code's map contains only INTEGER, TEXT, REAL and BLOB, so the claimed
null-affinity acceptance fails. -/
theorem validate_allowlist_counterexample :
    validateSQLType "NULL" = false ∧ validateSQLType "null" = false ∧
      validateSQLType "Null" = false := by decide

/-- C4 amended: the validator accepts exactly the strings whose
(character-wise) upper-casing is INTEGER, TEXT, REAL or BLOB — the
null-affinity type is not accepted. -/
theorem validateSQLType_iff (s : String) :
    validateSQLType s = true ↔
      (strToUpper s = "INTEGER" ∨ strToUpper s = "TEXT" ∨
       strToUpper s = "REAL" ∨ strToUpper s = "BLOB") := by
  simp only [validateSQLType, Bool.or_eq_true, decide_eq_true_eq]
  tauto

/-- C5: on an empty ledger `Down` is a successful no-op; on a nonempty
ledger the selected batch is the batch of the ledger row that is last in
ascending-timestamp order (a row of maximal timestamp), and rows of any
other batch survive every outcome of the call.  The hypothesis is the
ledger primary-key invariant (`id` is unique). -/
theorem down_selects_last_timestamp_batch (store : Store) (useTx : Bool)
    (m : Migrator) (db : DBState) (hids : (db.ledger.map (·.id)).Nodup) :
    (db.ledger = [] → DownWithBatch store useTx m db = (.ok (), db)) ∧
    (db.ledger ≠ [] →
      (∃ r0 ∈ db.ledger, r0.batch = lastBatchSelected db ∧
        ∀ r ∈ db.ledger, r.timestamp ≤ r0.timestamp) ∧
      (∀ res db', DownWithBatch store useTx m db = (res, db') →
        ∀ r ∈ db.ledger, r.batch ≠ lastBatchSelected db → r ∈ db'.ledger)) := by
  constructor
  · intro hdb
    have hrec : getAppliedMigrations db = [] := by
      rw [getAppliedMigrations, hdb]
      rfl
    simp [DownWithBatch, hrec]
  · intro hdb
    have hrecne : getAppliedMigrations db ≠ [] := by
      rw [Ne, getAppliedMigrations, sortLe_eq_nil_iff]
      exact hdb
    constructor
    · refine ⟨(getAppliedMigrations db).getLastD default,
        (mem_sortLe _ _ _).mp (getLastD_mem _ _ hrecne), rfl, ?_⟩
      intro r hr
      have htot : ∀ a b : MigrationRecord, recLe a b = true ∨ recLe b a = true := by
        intro a b
        simp only [recLe, decide_eq_true_eq]
        exact Int.le_total _ _
      have hchain : BChain recLe (getAppliedMigrations db) := bchain_sortLe recLe htot db.ledger
      have := le_getLastD_of_bchain recLe
        (fun a => by simp [recLe])
        (fun a b c hab hbc => by
          simp only [recLe, decide_eq_true_eq] at hab hbc ⊢
          exact le_trans hab hbc)
        default (getAppliedMigrations db) hchain r ((mem_sortLe _ _ _).mpr hr)
      simpa [recLe] using this
    · intro res db' h r hr hbatch
      have hne_ids : ∀ rec ∈ (rollbackSet db).reverse, ¬ r.id = rec.id := by
        intro rec hrec hid
        have hrec1 : rec ∈ rollbackSet db := List.mem_reverse.mp hrec
        have hrecdb : rec ∈ db.ledger := (mem_sortLe _ _ _).mp (List.mem_of_mem_filter hrec1)
        have hrecbatch : rec.batch = lastBatchSelected db := by
          have := List.of_mem_filter hrec1
          exact of_decide_eq_true this
        have heq : rec = r :=
          List.inj_on_of_nodup_map hids hrecdb hr hid.symm
        rw [heq] at hrecbatch
        exact hbatch hrecbatch
      have hpres := runRollback_mem_preserved store m.migrations
        (rollbackSet db).reverse db r hr hne_ids
      have hE : (getAppliedMigrations db).isEmpty = false := by
        simpa using hrecne
      simp only [DownWithBatch, hE, Bool.false_eq_true, if_false] at h
      rcases hrr : runRollback store m.migrations (rollbackSet db).reverse db with ⟨res0, w⟩
      rw [hrr] at h
      rw [hrr] at hpres
      cases res0 with
      | error e =>
          simp only [Prod.mk.injEq] at h
          by_cases htx : useTx
          · rw [if_pos htx] at h
            rw [← h.2]
            exact hr
          · rw [if_neg htx] at h
            rw [← h.2]
            exact hpres
      | ok u =>
          cases u
          simp only at h
          by_cases htx : useTx
          · rw [if_pos htx] at h
            by_cases hco : store.commitOk
            · rw [if_pos hco] at h
              simp only [Prod.mk.injEq] at h
              rw [← h.2]
              exact hpres
            · rw [if_neg hco] at h
              simp only [Prod.mk.injEq] at h
              rw [← h.2]
              exact hr
          · rw [if_neg htx] at h
            simp only [Prod.mk.injEq] at h
            rw [← h.2]
            exact hpres

/-- Witness for C5 at a concrete input, which also demonstrates that the
selected batch is NOT the numerically greatest batch when timestamp order
and batch order disagree. -/
theorem down_selects_last_timestamp_batch_witness :
    ((dbSkew.ledger = [] → DownWithBatch storeAll true catalogDropT dbSkew = (.ok (), dbSkew)) ∧
     (dbSkew.ledger ≠ [] →
       (∃ r0 ∈ dbSkew.ledger, r0.batch = lastBatchSelected dbSkew ∧
         ∀ r ∈ dbSkew.ledger, r.timestamp ≤ r0.timestamp) ∧
       (∀ res db', DownWithBatch storeAll true catalogDropT dbSkew = (res, db') →
         ∀ r ∈ dbSkew.ledger, r.batch ≠ lastBatchSelected dbSkew → r ∈ db'.ledger))) ∧
    lastBatchSelected dbSkew = 1 ∧ ∃ r ∈ dbSkew.ledger, lastBatchSelected dbSkew < r.batch :=
  ⟨down_selects_last_timestamp_batch storeAll true catalogDropT dbSkew (by decide),
   by decide, by decide⟩

/-- C6: a successful `Down` deletes exactly the ledger rows of the selected
batch (all other rows survive, in order) and executes exactly the Down
statements of the matched registered migrations of that batch, processing
the rows in descending-timestamp order (the reverse of the ascending
ledger read).  Hypothesis: ledger `id` uniqueness (the table's primary
key). -/
theorem down_rolls_back_exactly_selected_batch (store : Store) (useTx : Bool)
    (m : Migrator) (db db' : DBState)
    (hids : (db.ledger.map (·.id)).Nodup)
    (h : DownWithBatch store useTx m db = (.ok (), db')) :
    db'.ledger = db.ledger.filter (fun r => !decide (r.batch = lastBatchSelected db)) ∧
    db'.schema = db.schema ++ (rollbackSet db).reverse.flatMap (fun rec =>
      match m.migrations.find? (fun mg => mg.id = rec.id) with
      | some mig => mig.down.map Operation.SQL
      | none => []) := by
  by_cases hdb : db.ledger = []
  · have hrec : getAppliedMigrations db = [] := by
      rw [getAppliedMigrations, hdb]
      rfl
    have hcall : DownWithBatch store useTx m db = (.ok (), db) := by
      simp [DownWithBatch, hrec]
    rw [hcall] at h
    simp only [Prod.mk.injEq, true_and] at h
    rw [← h]
    constructor
    · rw [hdb]; rfl
    · simp [rollbackSet, hrec]
  · have hrecne : getAppliedMigrations db ≠ [] := by
      rw [Ne, getAppliedMigrations, sortLe_eq_nil_iff]
      exact hdb
    have hE : (getAppliedMigrations db).isEmpty = false := by
      simpa using hrecne
    simp only [DownWithBatch, hE, Bool.false_eq_true, if_false] at h
    rcases hrr : runRollback store m.migrations (rollbackSet db).reverse db with ⟨res0, w⟩
    rw [hrr] at h
    cases res0 with
    | error e =>
        simp only [Prod.mk.injEq] at h
        exact absurd h.1 (by simp)
    | ok u =>
        cases u
        simp only at h
        have hwdb : w = db' := by
          by_cases htx : useTx
          · rw [if_pos htx] at h
            by_cases hco : store.commitOk
            · rw [if_pos hco] at h
              simp only [Prod.mk.injEq] at h
              exact h.2
            · rw [if_neg hco] at h
              simp only [Prod.mk.injEq] at h
              exact absurd h.1 (by simp)
          · rw [if_neg htx] at h
            simp only [Prod.mk.injEq] at h
            exact h.2
        have hok : runRollback store m.migrations (rollbackSet db).reverse db = (.ok (), w) := hrr
        constructor
        · rw [← hwdb, runRollback_ok_ledger store m.migrations _ db w hok]
          refine List.filter_congr fun r hrmem => ?_
          show (!((rollbackSet db).reverse.any fun rec => decide (r.id = rec.id))) =
            !decide (r.batch = lastBatchSelected db)
          have hmain : ((rollbackSet db).reverse.any fun rec => decide (r.id = rec.id)) =
              decide (r.batch = lastBatchSelected db) := by
            rw [Bool.eq_iff_iff]
            simp only [List.any_eq_true, decide_eq_true_eq, List.mem_reverse]
            constructor
            · rintro ⟨rec, hrec, hid⟩
              replace hrec : rec ∈ (getAppliedMigrations db).filter
                  (fun r => decide (r.batch = lastBatchSelected db)) := hrec
              have hrecdb : rec ∈ db.ledger :=
                (mem_sortLe _ _ _).mp (List.mem_of_mem_filter hrec)
              have hrecbatch : rec.batch = lastBatchSelected db := by
                have h2 := (List.mem_filter.mp hrec).2
                simpa using h2
              have heq : r = rec := List.inj_on_of_nodup_map hids hrmem hrecdb hid
              rw [heq]
              exact hrecbatch
            · intro hb
              refine ⟨r, ?_, rfl⟩
              show r ∈ (getAppliedMigrations db).filter
                (fun r => decide (r.batch = lastBatchSelected db))
              exact List.mem_filter.mpr ⟨(mem_sortLe _ _ _).mpr hrmem, decide_eq_true hb⟩
          rw [hmain]
        · rw [← hwdb]
          exact runRollback_ok_schema store m.migrations _ db w hok

/-- Witness for C6 at a concrete input: rolling back `dbSkew` with a
matching registered migration removes exactly the batch-1 rows and
executes exactly the registered Down statements. -/
theorem down_rolls_back_exactly_selected_batch_witness :
    (DownWithBatch storeAll true catalogDropT dbSkew).2.ledger =
      dbSkew.ledger.filter (fun r => !decide (r.batch = lastBatchSelected dbSkew)) ∧
    (DownWithBatch storeAll true catalogDropT dbSkew).2.schema =
      dbSkew.schema ++ (rollbackSet dbSkew).reverse.flatMap (fun rec =>
        match catalogDropT.migrations.find? (fun mg => mg.id = rec.id) with
        | some mig => mig.down.map Operation.SQL
        | none => []) :=
  down_rolls_back_exactly_selected_batch storeAll true catalogDropT dbSkew
    (DownWithBatch storeAll true catalogDropT dbSkew).2 (by decide) (by rfl)

/-- C7: a second `Up` call immediately after a successful one, with no new
registrations in between, performs no writes (the catalog and the
database are returned unchanged) and succeeds.  The only store behaviour
the second call relies on is that committing the (empty) transaction
succeeds when transactional mode is requested. -/
theorem up_idempotent (store store2 : Store) (useTx useTx2 : Bool)
    (m m' : Migrator) (db db' : DBState)
    (h : UpWithBatch store useTx m db = (.ok (), m', db'))
    (hc : useTx2 = true → store2.commitOk = true) :
    UpWithBatch store2 useTx2 m' db' = (.ok (), m', db') := by
  rcases upWithBatch_ok_inv store useTx m m' db db' h with ⟨hm', hrp⟩
  have hcov := runPending_ok_covered store _ _ _ db db' hrp
  rcases runPending_ledger_append store ((getAppliedMigrations db).map (·.id))
      (getNextBatchNumber db) (sortLe migLe m.migrations) db with ⟨new, hnew, -⟩
  rw [hrp] at hnew
  have htot : ∀ a b : Migration, migLe a b = true ∨ migLe b a = true := by
    intro a b
    simp only [migLe, decide_eq_true_eq]
    exact Int.le_total _ _
  have hsortedfix : sortLe migLe m'.migrations = m'.migrations := by
    rw [hm']
    exact sortLe_eq_of_bchain migLe _ (bchain_sortLe migLe htot m.migrations)
  have happlied : ∀ mig ∈ m'.migrations,
      ((getAppliedMigrations db').map (·.id)).any (fun a => a = mig.id) = true := by
    intro mig hmig
    rw [any_eq_iff_mem]
    have hmig0 : mig ∈ sortLe migLe m.migrations := by
      rw [hm'] at hmig
      exact hmig
    have hmem' : mig.id ∈ db'.ledger.map (fun r => r.id) := by
      rcases hcov mig hmig0 with hap | hin
      · have hm2 : mig.id ∈ (getAppliedMigrations db).map (fun r => r.id) :=
          (any_eq_iff_mem _ _).mp hap
        rcases List.mem_map.mp hm2 with ⟨r, hr, hrid⟩
        refine List.mem_map.mpr ⟨r, ?_, hrid⟩
        rw [hnew]
        exact List.mem_append_left _ ((mem_sortLe _ _ _).mp hr)
      · exact hin
    rcases List.mem_map.mp hmem' with ⟨r, hr, hrid⟩
    exact List.mem_map.mpr ⟨r, (mem_sortLe _ _ _).mpr hr, hrid⟩
  have hskip := runPending_skip_all store2 ((getAppliedMigrations db').map (·.id))
      (getNextBatchNumber db') (sortLe migLe m'.migrations) db'
      (fun mig hmig => happlied mig ((mem_sortLe _ _ _).mp hmig))
  simp only [UpWithBatch]
  rw [hskip]
  simp only
  by_cases htx2 : useTx2
  · rw [if_pos htx2, if_pos (hc htx2), hsortedfix]
  · rw [if_neg htx2, hsortedfix]

/-- Witness for C7 at a concrete input: re-running `Up` after a successful
apply is a successful no-op. -/
theorem up_idempotent_witness :
    UpWithBatch storeAll true (UpWithBatch storeAll true ⟨[migUsers]⟩ dbEmpty).2.1
      (UpWithBatch storeAll true ⟨[migUsers]⟩ dbEmpty).2.2 =
    (.ok (), (UpWithBatch storeAll true ⟨[migUsers]⟩ dbEmpty).2.1,
      (UpWithBatch storeAll true ⟨[migUsers]⟩ dbEmpty).2.2) :=
  up_idempotent storeAll storeAll true true ⟨[migUsers]⟩
    (UpWithBatch storeAll true ⟨[migUsers]⟩ dbEmpty).2.1 dbEmpty
    (UpWithBatch storeAll true ⟨[migUsers]⟩ dbEmpty).2.2 (by rfl) (fun _ => rfl)

/-- C9: `NewMigration` builds the ID as Unix seconds, underscore, name; two
creations in the same second with the same name therefore collide. -/
theorem newMigration_id_format (t1 t2 : Int) (n1 n2 : String)
    (ht : t1 = t2) (hn : n1 = n2) :
    (NewMigration t1 n1).id = toString t1 ++ "_" ++ n1 ∧
    (NewMigration t1 n1).id = (NewMigration t2 n2).id := by
  subst ht
  subst hn
  exact ⟨rfl, rfl⟩

/-- Witness for C9 at a concrete input. -/
theorem newMigration_id_format_witness :
    (NewMigration 1700000000 "add_users").id =
      toString (1700000000 : Int) ++ "_" ++ "add_users" ∧
    (NewMigration 1700000000 "add_users").id = (NewMigration 1700000000 "add_users").id :=
  newMigration_id_format 1700000000 1700000000 "add_users" "add_users" rfl rfl

/-- C10: `Down` never validates the Down operations it executes: with a
store that accepts every statement and every rolled-back row matched by a
registered migration, the call succeeds and executes exactly the rendered
Down statements — with no hypothesis whatsoever on the column types those
operations carry (compare the validation hypothesis needed to make `Up`
fail).  Only a store rejection could stop an invalid Down operation. -/
theorem down_never_validates (store : Store) (m : Migrator) (db : DBState)
    (hexec : ∀ sch s, store.execDDL sch s = true)
    (hcommit : store.commitOk = true)
    (hfound : ∀ rec ∈ (rollbackSet db).reverse,
      (m.migrations.find? (fun mg => mg.id = rec.id)).isSome) :
    ∃ db', DownWithBatch store true m db = (.ok (), db') ∧
      db'.schema = db.schema ++ (rollbackSet db).reverse.flatMap (fun rec =>
        match m.migrations.find? (fun mg => mg.id = rec.id) with
        | some mig => mig.down.map Operation.SQL
        | none => []) := by
  by_cases hdb : db.ledger = []
  · have hrec : getAppliedMigrations db = [] := by
      rw [getAppliedMigrations, hdb]
      rfl
    refine ⟨db, by simp [DownWithBatch, hrec], ?_⟩
    simp [rollbackSet, hrec]
  · have hrecne : getAppliedMigrations db ≠ [] := by
      rw [Ne, getAppliedMigrations, sortLe_eq_nil_iff]
      exact hdb
    have hE : (getAppliedMigrations db).isEmpty = false := by
      simpa using hrecne
    rcases hrr : runRollback store m.migrations (rollbackSet db).reverse db with ⟨res0, w⟩
    have h1 := runRollback_total store hexec m.migrations (rollbackSet db).reverse db hfound
    rw [hrr] at h1
    simp only at h1
    rw [h1] at hrr
    refine ⟨w, ?_, ?_⟩
    · simp only [DownWithBatch, hE, Bool.false_eq_true, if_false]
      rw [hrr]
      simp only [if_pos hcommit]
      simp
    · exact (runRollback_ok_schema store m.migrations _ db w hrr)

/-- Witness for C10 at a concrete input: a Down operation whose column
type fails the validator is executed anyway. -/
theorem down_never_validates_witness :
    validateSQLType "BOGUS" = false ∧
    ∃ db', DownWithBatch storeAll true catalogBogusDown dbSkew = (.ok (), db') ∧
      db'.schema = dbSkew.schema ++ (rollbackSet dbSkew).reverse.flatMap (fun rec =>
        match catalogBogusDown.migrations.find? (fun mg => mg.id = rec.id) with
        | some mig => mig.down.map Operation.SQL
        | none => []) :=
  ⟨by decide,
   down_never_validates storeAll catalogBogusDown dbSkew
     (fun _ _ => rfl) rfl (by decide)⟩

/-- The status-entry constructor `Status` applies to one catalog entry
(the body of its map). -/
theorem status_map_migration (records : List MigrationRecord) (l : List Migration) :
    (l.map fun mig =>
      (match appliedLookup records mig.id with
       | some r => { migration := mig, applied := some r.applied, batch := r.batch }
       | none => { migration := mig, applied := none, batch := 0 } : StatusEntry)).map
        (·.migration) = l := by
  induction l with
  | nil => rfl
  | cons mig rest ih =>
      simp only [List.map_cons, List.cons.injEq]
      refine ⟨?_, ih⟩
      cases appliedLookup records mig.id <;> rfl

/-- C8 counterexample: with two migrations registered out of timestamp
order (and no intervening `Up`, which would sort the catalog in place),
`Status` reports them in registration order, not ascending by logical
timestamp. -/
theorem status_not_sorted_counterexample :
    ((Status catalogUnsorted dbEmpty).map fun e => e.migration.timestamp) = [5, 3] ∧
    tsAscending ((Status catalogUnsorted dbEmpty).map fun e => e.migration.timestamp) = false :=
  ⟨by decide, by decide⟩

/-- C8 amended: `Status` returns exactly one entry per registered
migration, in catalog order (the code performs no sort; the catalog is in
registration order unless a previous `Up` sorted it in place).  The i-th
entry carries the i-th catalog migration together with its ledger row's
applied instant and batch when a row with its ID exists, else no instant
and batch 0. -/
theorem status_one_entry_per_migration (m : Migrator) (db : DBState) :
    (Status m db).length = m.migrations.length ∧
    (Status m db).map (·.migration) = m.migrations ∧
    ∀ i (hi : i < (Status m db).length) (hi2 : i < m.migrations.length),
      (Status m db).get ⟨i, hi⟩ =
        (match appliedLookup (getAppliedMigrations db) (m.migrations.get ⟨i, hi2⟩).id with
         | some r => { migration := m.migrations.get ⟨i, hi2⟩
                       applied := some r.applied, batch := r.batch }
         | none => { migration := m.migrations.get ⟨i, hi2⟩, applied := none, batch := 0 }) := by
  refine ⟨by simp [Status], status_map_migration _ _, ?_⟩
  intro i hi hi2
  simp only [Status, List.get_eq_getElem, List.getElem_map]

/-- Witness for C8's amended claim at a concrete input. -/
theorem status_one_entry_per_migration_witness :
    (Status catalogUnsorted dbEmpty).length = catalogUnsorted.migrations.length ∧
    (Status catalogUnsorted dbEmpty).map (·.migration) = catalogUnsorted.migrations ∧
    ∀ i (hi : i < (Status catalogUnsorted dbEmpty).length)
      (hi2 : i < catalogUnsorted.migrations.length),
      (Status catalogUnsorted dbEmpty).get ⟨i, hi⟩ =
        (match appliedLookup (getAppliedMigrations dbEmpty)
            (catalogUnsorted.migrations.get ⟨i, hi2⟩).id with
         | some r => { migration := catalogUnsorted.migrations.get ⟨i, hi2⟩
                       applied := some r.applied, batch := r.batch }
         | none => { migration := catalogUnsorted.migrations.get ⟨i, hi2⟩
                     applied := none, batch := 0 }) :=
  status_one_entry_per_migration catalogUnsorted dbEmpty
